import Mathlib

/-!
Verification of the pachyderm indexed-collection engine specification.

The repository ships three source files: the collection engine's test suite
(`src/server/pkg/collection/collection_test.go`), the Vault plugin login path
(`src/plugin/vault/pachyderm/login.go`) and the deployment asset generator
(`src/server/pkg/deploy/assets/assets.go`).  The collection engine itself
(schema, index maintenance, transactions, watch translation, TTL) is not part
of the shipped sources, so it is modelled here from the specification
(spec.md §3–§4.5, §6): a store of string-keyed entries holding primary
records and duplicated index entries, `Put`/`Delete` operations that stage
index deltas, a prefix-scan query ordered by key, and a watch translator that
deduplicates unchanged payloads.  The login path and the asset generator are
translated directly from their Go sources.

Modelling conventions (documented once here):
* machine strings are Lean `String`s; the item codec output is an arbitrary
  type with decidable equality (instantiated with the item type itself, i.e.
  an injective codec, in concrete scenarios);
* keys are represented structurally (`EKey`), with `renderKey` giving the
  string layout of spec §6; the structural key order used for scans agrees
  with the lexicographic order of rendered keys whenever index values and ids
  avoid the reserved `/` separator (spec §3, invariant 3);
* stateful code is explicit state passing; fallible code returns `Except`.
-/

/-- Modelled from the spec: a key of the coordination store is either a
primary record key `namespace + id` or an index entry key
`namespace + "__index_" + field + "/" + value + "/" + id` (spec §6).  The
namespace is a fixed prefix shared by every key of one collection, so it is
factored out of the structural representation and reattached by `renderKey`. -/
inductive EKey where
  | primary (id : String)
  | index (field : String) (val : String) (id : String)
deriving DecidableEq

/-- Key layout of spec §6, with the collection namespace `ns` reattached. -/
def renderKey (ns : String) : EKey → String
  | .primary id => ns ++ id
  | .index f v id => ns ++ "__index_" ++ f ++ "/" ++ v ++ "/" ++ id

/-- Trailing id segment of a key (spec §4.5: the record id is parsed from the
final key segment). -/
def keyId : EKey → String
  | .primary id => id
  | .index _ _ id => id

/-- Modelled from the spec: the coordination store's key space for one
collection, an association list from keys to stored payloads.  Payloads are
the decoded items (the codec is carried separately by `Coll`). -/
abbrev Store (Item : Type) := List (EKey × Item)

/-- Point lookup in the store. -/
def getK {Item : Type} : Store Item → EKey → Option Item
  | [], _ => none
  | e :: r, k => if e.1 = k then some e.2 else getK r k

/-- Deletion of a key from the store. -/
def delK {Item : Type} : Store Item → EKey → Store Item
  | [], _ => []
  | e :: r, k => if e.1 = k then delK r k else e :: delK r k

theorem delK_sublist {Item : Type} (s : Store Item) (k : EKey) :
    List.Sublist (delK s k) s := by
  induction s with
  | nil => simp [delK]
  | cons e r ih =>
    by_cases he : e.1 = k
    · simpa [delK, he] using ih.trans (List.sublist_cons_self e r)
    · simpa [delK, he] using ih.cons₂ e

theorem ne_of_mem_delK {Item : Type} {s : Store Item} {k : EKey} {e : EKey × Item}
    (h : e ∈ delK s k) : e.1 ≠ k := by
  induction s with
  | nil => simp [delK] at h
  | cons e' r ih =>
    by_cases he : e'.1 = k
    · exact ih (by simpa [delK, he] using h)
    · rcases List.mem_cons.mp (by simpa [delK, he] using h) with h1 | h1
      · simpa [h1] using he
      · exact ih h1

/-- Write of a key, replacing any previous binding. -/
def putK {Item : Type} (s : Store Item) (k : EKey) (v : Item) : Store Item :=
  (k, v) :: delK s k

theorem getK_delK {Item : Type} (s : Store Item) (k k' : EKey) :
    getK (delK s k) k' = if k' = k then none else getK s k' := by
  induction s with
  | nil => simp [delK, getK]
  | cons e r ih =>
    by_cases he : e.1 = k
    · rw [show delK (e :: r) k = delK r k from by simp [delK, he], ih]
      by_cases hk : k' = k
      · simp [hk]
      · have : e.1 ≠ k' := fun hc => hk (by rw [← hc, he])
        simp [hk, getK, this]
    · rw [show delK (e :: r) k = e :: delK r k from by simp [delK, he]]
      by_cases he' : e.1 = k'
      · have hk : k' ≠ k := fun hc => he (by rw [he', hc])
        simp [getK, he', hk]
      · simp only [getK, if_neg he']
        exact ih

theorem getK_putK {Item : Type} (s : Store Item) (k k' : EKey) (v : Item) :
    getK (putK s k v) k' = if k' = k then some v else getK s k' := by
  by_cases hk : k' = k
  · simp [putK, getK, hk]
  · have : k ≠ k' := fun hc => hk hc.symm
    simp [putK, getK, this, getK_delK, hk]

/-- Keys of a store are pairwise distinct. -/
def KeysNodup {Item : Type} (s : Store Item) : Prop :=
  s.Pairwise (fun a b => a.1 ≠ b.1)

theorem keysNodup_delK {Item : Type} {s : Store Item} (h : KeysNodup s) (k : EKey) :
    KeysNodup (delK s k) :=
  h.sublist (delK_sublist s k)

theorem keysNodup_putK {Item : Type} {s : Store Item} (h : KeysNodup s) (k : EKey) (v : Item) :
    KeysNodup (putK s k v) := by
  refine List.pairwise_cons.mpr ⟨?_, keysNodup_delK h k⟩
  intro e he
  exact (ne_of_mem_delK he).symm

theorem mem_of_getK {Item : Type} {s : Store Item} {k : EKey} {v : Item}
    (h : getK s k = some v) : (k, v) ∈ s := by
  induction s with
  | nil => simp [getK] at h
  | cons e r ih =>
    by_cases he : e.1 = k
    · simp only [getK, if_pos he, Option.some.injEq] at h
      cases e with
      | mk k0 v0 =>
        simp only at he h
        subst he; subst h
        exact List.mem_cons_self _ _
    · simp only [getK, if_neg he] at h
      exact List.mem_cons_of_mem _ (ih h)

theorem getK_of_mem {Item : Type} {s : Store Item} {k : EKey} {v : Item}
    (hnd : KeysNodup s) (h : (k, v) ∈ s) : getK s k = some v := by
  induction s with
  | nil => simp at h
  | cons e r ih =>
    rcases List.mem_cons.mp h with h | h
    · simp [getK, ← h]
    · have hne : e.1 ≠ k := by
        have := (List.pairwise_cons.mp hnd).1 (k, v) h
        simpa using this
      simp [getK, hne]
      exact ih (List.pairwise_cons.mp hnd).2 h

theorem exists_getK_of_mem_keys {Item : Type} {s : Store Item} {k : EKey}
    (h : k ∈ s.map Prod.fst) : ∃ v, getK s k = some v := by
  induction s with
  | nil => simp at h
  | cons e r ih =>
    by_cases he : e.1 = k
    · exact ⟨e.2, by simp [getK, he]⟩
    · simp only [List.map_cons, List.mem_cons] at h
      rcases h with h1 | h1
      · exact absurd h1.symm he
      · simpa [getK, he] using ih h1

/-- Modelled from the spec: a collection schema (spec §3).  The namespace is
carried only by `renderKey`; `encode` is the item codec (binary encoding,
compared for byte identity in the dedup rule of §4.3); `indexes` maps each
index's field name to the function producing its stringified value
fragments (one fragment for single-valued indexes, several for multi-valued
ones, spec §4.1). -/
structure Coll (Item : Type) (Bytes : Type) where
  encode : Item → Bytes
  indexes : List (String × (Item → List String))

/-- Fragment set of one index for one item: the stringified values,
deduplicated (spec §4.1 `indexEntries`). -/
def frags {Item : Type} (ix : String × (Item → List String)) (it : Item) : List String :=
  (ix.2 it).dedup

/-- Modelled from the spec: a raw change-feed notification of the
coordination store (spec §4.5, glossary "change feed"). -/
inductive RawEvent (Item : Type) where
  | putE (k : EKey) (v : Item)
  | delE (k : EKey)
deriving DecidableEq

/-- Index entry keys staged for writing by a `Put` of `(id, it)`: one key per
`(index, value)` pair currently produced by the item (spec §3, §4.3 step 3;
every current fragment's payload is (re)written to the new encoding so that
index entries never reference stale item data, spec §3 "Index Entry"). -/
def newIdxKeys {Item : Type} {Bytes : Type} (c : Coll Item Bytes) (id : String) (it : Item) :
    List EKey :=
  c.indexes.flatMap (fun ix => (frags ix it).map (fun v => EKey.index ix.1 v id))

/-- Index entry keys staged for deletion by a `Put` replacing `prev` with
`it`: one key per fragment of the previous item absent from the new fragment
set (spec §4.3 step 3). -/
def droppedIdxKeys {Item : Type} {Bytes : Type} (c : Coll Item Bytes) (id : String)
    (prev it : Item) : List EKey :=
  c.indexes.flatMap (fun ix =>
    ((frags ix prev).filter (fun v => decide (v ∉ frags ix it))).map
      (fun v => EKey.index ix.1 v id))

/-- Raw events staged by a non-no-op `Put` (spec §4.3 step 3): deletes of
dropped index fragments, writes of all current index fragments carrying the
new payload, and the primary write. -/
def stagedPut {Item : Type} {Bytes : Type} (c : Coll Item Bytes) (id : String) (it : Item)
    (prev : Option Item) : List (RawEvent Item) :=
  (match prev with
   | some p => (droppedIdxKeys c id p it).map RawEvent.delE
   | none => [])
  ++ (newIdxKeys c id it).map (fun k => RawEvent.putE k it)
  ++ [RawEvent.putE (EKey.primary id) it]

/-- Raw events staged by a `Delete` of a record currently holding `prev`
(spec §4.3): deletes of every index fragment of the current item and of the
primary key. -/
def stagedDel {Item : Type} {Bytes : Type} (c : Coll Item Bytes) (id : String) (prev : Item) :
    List (RawEvent Item) :=
  (newIdxKeys c id prev).map RawEvent.delE ++ [RawEvent.delE (EKey.primary id)]

/-- Application of one raw event to the store. -/
def applyEvent {Item : Type} (s : Store Item) : RawEvent Item → Store Item
  | .putE k v => putK s k v
  | .delE k => delK s k

/-- Application of a staged event list to the store (one atomic commit). -/
def applyEvents {Item : Type} (s : Store Item) (evs : List (RawEvent Item)) : Store Item :=
  evs.foldl applyEvent s

/-- Modelled from the spec: `Put(id, item)` (spec §4.3).  Reads the current
record; if the previous encoding is byte-identical to the new encoding the
operation is a complete no-op staging nothing; otherwise it stages the
primary write together with the index deltas.  Returns the new store and the
staged raw events. -/
def putOp {Item : Type} {Bytes : Type} [DecidableEq Bytes] (c : Coll Item Bytes)
    (s : Store Item) (id : String) (it : Item) : Store Item × List (RawEvent Item) :=
  match getK s (EKey.primary id) with
  | some prev =>
    if c.encode prev = c.encode it then (s, [])
    else
      let evs := stagedPut c id it (some prev)
      (applyEvents s evs, evs)
  | none =>
    let evs := stagedPut c id it none
    (applyEvents s evs, evs)

/-- Modelled from the spec: `Delete(id)` (spec §4.3).  Reads the current item
to compute its index fragments and stages deletion of the primary key and of
every one of its index entries; deleting an absent record stages nothing. -/
def deleteOp {Item : Type} {Bytes : Type} (c : Coll Item Bytes) (s : Store Item) (id : String) :
    Store Item × List (RawEvent Item) :=
  match getK s (EKey.primary id) with
  | some prev =>
    let evs := stagedDel c id prev
    (applyEvents s evs, evs)
  | none => (s, [])

/-- One transactional operation against the collection. -/
inductive Op (Item : Type) where
  | put (id : String) (it : Item)
  | del (id : String)

/-- Store reached by one operation. -/
def execOp {Item : Type} {Bytes : Type} [DecidableEq Bytes] (c : Coll Item Bytes)
    (s : Store Item) : Op Item → Store Item
  | .put id it => (putOp c s id it).1
  | .del id => (deleteOp c s id).1

/-- Raw events emitted by one operation. -/
def opEvents {Item : Type} {Bytes : Type} [DecidableEq Bytes] (c : Coll Item Bytes)
    (s : Store Item) : Op Item → List (RawEvent Item)
  | .put id it => (putOp c s id it).2
  | .del id => (deleteOp c s id).2

/-- Store reached by a sequence of operations. -/
def execOps {Item : Type} {Bytes : Type} [DecidableEq Bytes] (c : Coll Item Bytes)
    (s : Store Item) : List (Op Item) → Store Item
  | [] => s
  | op :: rest => execOps c (execOp c s op) rest

/-- Raw change feed produced by a sequence of operations, in commit order. -/
def runEvents {Item : Type} {Bytes : Type} [DecidableEq Bytes] (c : Coll Item Bytes)
    (s : Store Item) : List (Op Item) → List (RawEvent Item)
  | [] => []
  | op :: rest => opEvents c s op ++ runEvents c (execOp c s op) rest

theorem execOps_append {Item : Type} {Bytes : Type} [DecidableEq Bytes] (c : Coll Item Bytes)
    (s : Store Item) (l1 l2 : List (Op Item)) :
    execOps c s (l1 ++ l2) = execOps c (execOps c s l1) l2 := by
  induction l1 generalizing s with
  | nil => simp [execOps]
  | cons op rest ih => simp [execOps, ih]

theorem runEvents_append {Item : Type} {Bytes : Type} [DecidableEq Bytes] (c : Coll Item Bytes)
    (s : Store Item) (l1 l2 : List (Op Item)) :
    runEvents c s (l1 ++ l2) = runEvents c s l1 ++ runEvents c (execOps c s l1) l2 := by
  induction l1 generalizing s with
  | nil => simp [runEvents, execOps]
  | cons op rest ih => simp [runEvents, execOps, ih]

/-- Last write an event list performs on a key: `some (some v)` when the last
touch is a put of `v`, `some none` when it is a delete, `none` when the list
never touches the key. -/
def lastWrite {Item : Type} : List (RawEvent Item) → EKey → Option (Option Item)
  | [], _ => none
  | e :: r, k =>
    match lastWrite r k with
    | some x => some x
    | none =>
      match e with
      | .putE k' v => if k' = k then some (some v) else none
      | .delE k' => if k' = k then some none else none

theorem getK_applyEvents {Item : Type} (evs : List (RawEvent Item)) (s : Store Item)
    (k : EKey) :
    getK (applyEvents s evs) k =
      match lastWrite evs k with
      | some x => x
      | none => getK s k := by
  induction evs generalizing s with
  | nil => simp [applyEvents, lastWrite]
  | cons e r ih =>
    have hstep : applyEvents s (e :: r) = applyEvents (applyEvent s e) r := rfl
    rw [hstep, ih]
    rcases hlw : lastWrite r k with _ | x
    · simp only [lastWrite, hlw]
      cases e with
      | putE k' v =>
        by_cases hk : k' = k
        · simp [applyEvent, getK_putK, hk]
        · simp [applyEvent, getK_putK, hk, Ne.symm hk]
      | delE k' =>
        by_cases hk : k' = k
        · simp [applyEvent, getK_delK, hk]
        · simp [applyEvent, getK_delK, hk, Ne.symm hk]
    · simp [lastWrite, hlw]

theorem lastWrite_append {Item : Type} (l1 l2 : List (RawEvent Item)) (k : EKey) :
    lastWrite (l1 ++ l2) k =
      match lastWrite l2 k with
      | some x => some x
      | none => lastWrite l1 k := by
  induction l1 with
  | nil => simp [lastWrite]; rcases lastWrite l2 k with _ | x <;> simp
  | cons e r ih =>
    show (match lastWrite (r ++ l2) k with
      | some x => some x
      | none =>
        match e with
        | RawEvent.putE k' v => if k' = k then some (some v) else none
        | RawEvent.delE k' => if k' = k then some none else none) = _
    rw [ih]
    cases h2 : lastWrite l2 k with
    | none => simp only [lastWrite]
    | some x => simp

theorem lastWrite_mapPut {Item : Type} (ks : List EKey) (it : Item) (k : EKey) :
    lastWrite (ks.map (fun k' => RawEvent.putE k' it)) k =
      if k ∈ ks then some (some it) else none := by
  induction ks with
  | nil => simp [lastWrite]
  | cons k0 r ih =>
    simp only [List.map_cons, lastWrite, ih]
    by_cases hm : k ∈ r
    · simp [hm]
    · by_cases hk : k0 = k
      · simp [hm, hk]
      · simp [hm, hk, Ne.symm hk]

theorem lastWrite_mapDel {Item : Type} (ks : List EKey) (k : EKey) :
    lastWrite (ks.map (RawEvent.delE : EKey → RawEvent Item)) k =
      if k ∈ ks then some none else none := by
  induction ks with
  | nil => simp [lastWrite]
  | cons k0 r ih =>
    simp only [List.map_cons, lastWrite, ih]
    by_cases hm : k ∈ r
    · simp [hm]
    · by_cases hk : k0 = k
      · simp [hm, hk]
      · simp [hm, hk, Ne.symm hk]

theorem lastWrite_single_put {Item : Type} (k0 k : EKey) (it : Item) :
    lastWrite [RawEvent.putE k0 it] k = if k0 = k then some (some it) else none := by
  simp [lastWrite]

theorem lastWrite_single_del {Item : Type} (k0 k : EKey) :
    lastWrite [(RawEvent.delE k0 : RawEvent Item)] k = if k0 = k then some none else none := by
  simp [lastWrite]

theorem mem_newIdxKeys {Item : Type} {Bytes : Type} {c : Coll Item Bytes} {id : String}
    {it : Item} {f v j : String} :
    EKey.index f v j ∈ newIdxKeys c id it ↔
      ∃ ix ∈ c.indexes, ix.1 = f ∧ v ∈ frags ix it ∧ j = id := by
  simp only [newIdxKeys, List.mem_flatMap, List.mem_map, EKey.index.injEq]
  constructor
  · rintro ⟨ix, hix, w, hw, hf, hv, hj⟩
    exact ⟨ix, hix, hf, by rw [← hv]; exact hw, hj.symm⟩
  · rintro ⟨ix, hix, hf, hv, hj⟩
    exact ⟨ix, hix, v, hv, hf, rfl, hj.symm⟩

theorem primary_not_mem_newIdxKeys {Item : Type} {Bytes : Type} {c : Coll Item Bytes}
    {id : String} {it : Item} {j : String} :
    EKey.primary j ∉ newIdxKeys c id it := by
  simp [newIdxKeys, List.mem_flatMap]

theorem mem_droppedIdxKeys {Item : Type} {Bytes : Type} {c : Coll Item Bytes} {id : String}
    {prev it : Item} {f v j : String} :
    EKey.index f v j ∈ droppedIdxKeys c id prev it ↔
      ∃ ix ∈ c.indexes, ix.1 = f ∧ v ∈ frags ix prev ∧ v ∉ frags ix it ∧ j = id := by
  simp only [droppedIdxKeys, List.mem_flatMap, List.mem_map, List.mem_filter,
    EKey.index.injEq, decide_eq_true_eq]
  constructor
  · rintro ⟨ix, hix, w, ⟨hw, hwn⟩, hf, hv, hj⟩
    subst hv
    exact ⟨ix, hix, hf, hw, hwn, hj.symm⟩
  · rintro ⟨ix, hix, hf, hv, hvn, hj⟩
    exact ⟨ix, hix, v, ⟨hv, hvn⟩, hf, rfl, hj.symm⟩

theorem primary_not_mem_droppedIdxKeys {Item : Type} {Bytes : Type} {c : Coll Item Bytes}
    {id : String} {prev it : Item} {j : String} :
    EKey.primary j ∉ droppedIdxKeys c id prev it := by
  simp [droppedIdxKeys, List.mem_flatMap]

/-- Index definitions of a schema have pairwise distinct field names, so that
each index owns its sub-namespace (spec §3 "Index"). -/
def FieldsNodup {Item : Type} {Bytes : Type} (c : Coll Item Bytes) : Prop :=
  (c.indexes.map Prod.fst).Nodup

theorem eq_of_mem_fst_nodup {α β : Type} {l : List (α × β)}
    (hnd : (l.map Prod.fst).Nodup) {a b : α × β} (ha : a ∈ l) (hb : b ∈ l)
    (hfst : a.1 = b.1) : a = b := by
  induction l with
  | nil => simp at ha
  | cons e r ih =>
    simp only [List.map_cons, List.nodup_cons] at hnd
    rcases List.mem_cons.mp ha with ha1 | ha1 <;> rcases List.mem_cons.mp hb with hb1 | hb1
    · rw [ha1, hb1]
    · refine absurd ?_ hnd.1
      rw [← ha1, hfst]
      exact List.mem_map_of_mem Prod.fst hb1
    · refine absurd ?_ hnd.1
      rw [← hb1, ← hfst]
      exact List.mem_map_of_mem Prod.fst ha1
    · exact ih hnd.2 ha1 hb1

theorem mem_newIdxKeys_unique {Item : Type} {Bytes : Type} {c : Coll Item Bytes}
    (hnd : FieldsNodup c) {ix : String × (Item → List String)} (hix : ix ∈ c.indexes)
    {id : String} {it : Item} {v j : String} :
    EKey.index ix.1 v j ∈ newIdxKeys c id it ↔ (v ∈ frags ix it ∧ j = id) := by
  rw [mem_newIdxKeys]
  constructor
  · rintro ⟨jx, hjx, hf, hv, hj⟩
    have : jx = ix := eq_of_mem_fst_nodup hnd hjx hix hf
    exact ⟨this ▸ hv, hj⟩
  · rintro ⟨hv, hj⟩
    exact ⟨ix, hix, rfl, hv, hj⟩

theorem mem_droppedIdxKeys_unique {Item : Type} {Bytes : Type} {c : Coll Item Bytes}
    (hnd : FieldsNodup c) {ix : String × (Item → List String)} (hix : ix ∈ c.indexes)
    {id : String} {prev it : Item} {v j : String} :
    EKey.index ix.1 v j ∈ droppedIdxKeys c id prev it ↔
      (v ∈ frags ix prev ∧ v ∉ frags ix it ∧ j = id) := by
  rw [mem_droppedIdxKeys]
  constructor
  · rintro ⟨jx, hjx, hf, hv, hvn, hj⟩
    have : jx = ix := eq_of_mem_fst_nodup hnd hjx hix hf
    subst this
    exact ⟨hv, hvn, hj⟩
  · rintro ⟨hv, hvn, hj⟩
    exact ⟨ix, hix, rfl, hv, hvn, hj⟩

theorem keysNodup_applyEvents {Item : Type} {s : Store Item} (h : KeysNodup s)
    (evs : List (RawEvent Item)) : KeysNodup (applyEvents s evs) := by
  induction evs generalizing s with
  | nil => exact h
  | cons e r ih =>
    have hstep : applyEvents s (e :: r) = applyEvents (applyEvent s e) r := rfl
    rw [hstep]
    refine ih ?_
    cases e with
    | putE k v => exact keysNodup_putK h k v
    | delE k => exact keysNodup_delK h k

theorem getK_stagedPut_some {Item : Type} {Bytes : Type} (c : Coll Item Bytes) (id : String)
    (it p : Item) (s : Store Item) (k : EKey) :
    getK (applyEvents s (stagedPut c id it (some p))) k =
      if k = EKey.primary id then some it
      else if k ∈ newIdxKeys c id it then some it
      else if k ∈ droppedIdxKeys c id p it then none
      else getK s k := by
  rw [getK_applyEvents]
  simp only [stagedPut]
  rw [lastWrite_append, lastWrite_append, lastWrite_single_put, lastWrite_mapPut,
    lastWrite_mapDel]
  by_cases hp : EKey.primary id = k
  · subst hp
    simp
  · have hp' : ¬ k = EKey.primary id := fun hc => hp hc.symm
    simp only [if_neg hp, if_neg hp']
    by_cases hn : k ∈ newIdxKeys c id it
    · simp [hn]
    · simp only [if_neg hn]
      by_cases hd : k ∈ droppedIdxKeys c id p it
      · simp [hd]
      · simp [hd]

theorem getK_stagedPut_none {Item : Type} {Bytes : Type} (c : Coll Item Bytes) (id : String)
    (it : Item) (s : Store Item) (k : EKey) :
    getK (applyEvents s (stagedPut c id it none)) k =
      if k = EKey.primary id then some it
      else if k ∈ newIdxKeys c id it then some it
      else getK s k := by
  rw [getK_applyEvents]
  simp only [stagedPut]
  rw [List.nil_append, lastWrite_append, lastWrite_single_put, lastWrite_mapPut]
  by_cases hp : EKey.primary id = k
  · subst hp
    simp
  · have hp' : ¬ k = EKey.primary id := fun hc => hp hc.symm
    simp only [if_neg hp, if_neg hp']
    by_cases hn : k ∈ newIdxKeys c id it
    · simp [hn]
    · simp [hn]

theorem getK_stagedDel {Item : Type} {Bytes : Type} (c : Coll Item Bytes) (id : String)
    (p : Item) (s : Store Item) (k : EKey) :
    getK (applyEvents s (stagedDel c id p)) k =
      if k = EKey.primary id then none
      else if k ∈ newIdxKeys c id p then none
      else getK s k := by
  rw [getK_applyEvents]
  simp only [stagedDel]
  rw [lastWrite_append, lastWrite_single_del, lastWrite_mapDel]
  by_cases hp : EKey.primary id = k
  · subst hp
    simp
  · have hp' : ¬ k = EKey.primary id := fun hc => hp hc.symm
    simp only [if_neg hp, if_neg hp']
    by_cases hn : k ∈ newIdxKeys c id p
    · simp [hn]
    · simp [hn]

/-- Modelled from the spec: the index-coherence invariant of spec §3.  An
index entry under `(field, value, id)` holds payload `it` exactly when the
primary record `id` holds the same payload and `value` is currently produced
by that index's field function; index keys only exist for declared index
fields; store keys are pairwise distinct. -/
def IndexInv {Item : Type} {Bytes : Type} (c : Coll Item Bytes) (s : Store Item) : Prop :=
  (∀ ix ∈ c.indexes, ∀ v id it,
    getK s (EKey.index ix.1 v id) = some it ↔
      (getK s (EKey.primary id) = some it ∧ v ∈ frags ix it))
  ∧ (∀ f v id, getK s (EKey.index f v id) ≠ none → f ∈ c.indexes.map Prod.fst)
  ∧ KeysNodup s

theorem indexInv_nil {Item : Type} {Bytes : Type} (c : Coll Item Bytes) :
    IndexInv c ([] : Store Item) := by
  refine ⟨?_, ?_, List.Pairwise.nil⟩
  · intro ix _ v id it
    simp [getK]
  · intro f v id h
    simp [getK] at h

theorem getK_stagedPut_some_primary {Item : Type} {Bytes : Type} (c : Coll Item Bytes)
    (id : String) (it p : Item) (s : Store Item) (id' : String) :
    getK (applyEvents s (stagedPut c id it (some p))) (EKey.primary id') =
      if id' = id then some it else getK s (EKey.primary id') := by
  rw [getK_stagedPut_some]
  by_cases h : id' = id
  · simp [h]
  · simp [h, primary_not_mem_newIdxKeys, primary_not_mem_droppedIdxKeys]

theorem getK_stagedPut_none_primary {Item : Type} {Bytes : Type} (c : Coll Item Bytes)
    (id : String) (it : Item) (s : Store Item) (id' : String) :
    getK (applyEvents s (stagedPut c id it none)) (EKey.primary id') =
      if id' = id then some it else getK s (EKey.primary id') := by
  rw [getK_stagedPut_none]
  by_cases h : id' = id
  · simp [h]
  · simp [h, primary_not_mem_newIdxKeys]

theorem getK_stagedDel_primary {Item : Type} {Bytes : Type} (c : Coll Item Bytes)
    (id : String) (p : Item) (s : Store Item) (id' : String) :
    getK (applyEvents s (stagedDel c id p)) (EKey.primary id') =
      if id' = id then none else getK s (EKey.primary id') := by
  rw [getK_stagedDel]
  by_cases h : id' = id
  · simp [h]
  · simp [h, primary_not_mem_newIdxKeys]

theorem getK_stagedPut_some_index {Item : Type} {Bytes : Type} {c : Coll Item Bytes}
    (hnd : FieldsNodup c) {ix : String × (Item → List String)} (hix : ix ∈ c.indexes)
    (id : String) (it p : Item) (s : Store Item) (v id' : String) :
    getK (applyEvents s (stagedPut c id it (some p))) (EKey.index ix.1 v id') =
      if id' = id then
        (if v ∈ frags ix it then some it
         else if v ∈ frags ix p then none
         else getK s (EKey.index ix.1 v id))
      else getK s (EKey.index ix.1 v id') := by
  rw [getK_stagedPut_some]
  by_cases hid : id' = id
  · subst hid
    by_cases hv : v ∈ frags ix it
    · simp [mem_newIdxKeys_unique hnd hix, hv]
    · by_cases hp : v ∈ frags ix p
      · simp [mem_newIdxKeys_unique hnd hix, mem_droppedIdxKeys_unique hnd hix, hv, hp]
      · simp [mem_newIdxKeys_unique hnd hix, mem_droppedIdxKeys_unique hnd hix, hv, hp]
  · simp [mem_newIdxKeys_unique hnd hix, mem_droppedIdxKeys_unique hnd hix, hid]

theorem getK_stagedPut_none_index {Item : Type} {Bytes : Type} {c : Coll Item Bytes}
    (hnd : FieldsNodup c) {ix : String × (Item → List String)} (hix : ix ∈ c.indexes)
    (id : String) (it : Item) (s : Store Item) (v id' : String) :
    getK (applyEvents s (stagedPut c id it none)) (EKey.index ix.1 v id') =
      if id' = id then
        (if v ∈ frags ix it then some it else getK s (EKey.index ix.1 v id))
      else getK s (EKey.index ix.1 v id') := by
  rw [getK_stagedPut_none]
  by_cases hid : id' = id
  · subst hid
    by_cases hv : v ∈ frags ix it
    · simp [mem_newIdxKeys_unique hnd hix, hv]
    · simp [mem_newIdxKeys_unique hnd hix, hv]
  · simp [mem_newIdxKeys_unique hnd hix, hid]

theorem getK_stagedDel_index {Item : Type} {Bytes : Type} {c : Coll Item Bytes}
    (hnd : FieldsNodup c) {ix : String × (Item → List String)} (hix : ix ∈ c.indexes)
    (id : String) (p : Item) (s : Store Item) (v id' : String) :
    getK (applyEvents s (stagedDel c id p)) (EKey.index ix.1 v id') =
      if id' = id then
        (if v ∈ frags ix p then none else getK s (EKey.index ix.1 v id))
      else getK s (EKey.index ix.1 v id') := by
  rw [getK_stagedDel]
  by_cases hid : id' = id
  · subst hid
    by_cases hv : v ∈ frags ix p
    · simp [mem_newIdxKeys_unique hnd hix, hv]
    · simp [mem_newIdxKeys_unique hnd hix, hv]
  · simp [mem_newIdxKeys_unique hnd hix, hid]

theorem indexInv_putOp {Item : Type} {Bytes : Type} [DecidableEq Bytes] {c : Coll Item Bytes}
    (hnd : FieldsNodup c) {s : Store Item} (hinv : IndexInv c s) (id : String) (it : Item) :
    IndexInv c (putOp c s id it).1 := by
  obtain ⟨h1, h2, h3⟩ := hinv
  cases hprev : getK s (EKey.primary id) with
  | some prev =>
    by_cases henc : c.encode prev = c.encode it
    · simp only [putOp, hprev, if_pos henc]
      exact ⟨h1, h2, h3⟩
    · simp only [putOp, hprev, if_neg henc]
      refine ⟨?_, ?_, keysNodup_applyEvents h3 _⟩
      · intro ix hix v id' it'
        rw [getK_stagedPut_some_index hnd hix, getK_stagedPut_some_primary]
        by_cases hid : id' = id
        · simp only [if_pos hid]
          by_cases hv : v ∈ frags ix it
          · simp only [if_pos hv]
            constructor
            · intro h
              refine ⟨h, ?_⟩
              have : it = it' := Option.some.inj h
              exact this ▸ hv
            · exact And.left
          · simp only [if_neg hv]
            by_cases hp : v ∈ frags ix prev
            case pos =>
              simp only [if_pos hp]
              constructor
              · intro h
                exact absurd h (by simp)
              · rintro ⟨hq, hw⟩
                have : it = it' := Option.some.inj hq
                exact absurd (this ▸ hw) hv
            case neg =>
              simp only [if_neg hp]
              rw [h1 ix hix v id it', hprev]
              constructor
              · rintro ⟨hq, hw⟩
                have : prev = it' := Option.some.inj hq
                exact absurd (this ▸ hw) hp
              · rintro ⟨hq, hw⟩
                have : it = it' := Option.some.inj hq
                exact absurd (this ▸ hw) hv
        · simp only [if_neg hid]
          exact h1 ix hix v id' it'
      · intro f v id' h
        rw [getK_stagedPut_some] at h
        simp only [if_neg (by simp : ¬ (EKey.index f v id' = EKey.primary id))] at h
        by_cases hn : EKey.index f v id' ∈ newIdxKeys c id it
        · obtain ⟨jx, hjx, hf, _, _⟩ := mem_newIdxKeys.mp hn
          exact hf ▸ List.mem_map_of_mem Prod.fst hjx
        · simp only [if_neg hn] at h
          by_cases hd : EKey.index f v id' ∈ droppedIdxKeys c id prev it
          · simp [if_pos hd] at h
          · simp only [if_neg hd] at h
            exact h2 f v id' h
  | none =>
    simp only [putOp, hprev]
    refine ⟨?_, ?_, keysNodup_applyEvents h3 _⟩
    · intro ix hix v id' it'
      rw [getK_stagedPut_none_index hnd hix, getK_stagedPut_none_primary]
      by_cases hid : id' = id
      · simp only [if_pos hid]
        by_cases hv : v ∈ frags ix it
        · simp only [if_pos hv]
          constructor
          · intro h
            refine ⟨h, ?_⟩
            have : it = it' := Option.some.inj h
            exact this ▸ hv
          · exact And.left
        · simp only [if_neg hv]
          rw [h1 ix hix v id it', hprev]
          constructor
          · rintro ⟨hq, _⟩
            exact absurd hq (by simp)
          · rintro ⟨hq, hw⟩
            have : it = it' := Option.some.inj hq
            exact absurd (this ▸ hw) hv
      · simp only [if_neg hid]
        exact h1 ix hix v id' it'
    · intro f v id' h
      rw [getK_stagedPut_none] at h
      simp only [if_neg (by simp : ¬ (EKey.index f v id' = EKey.primary id))] at h
      by_cases hn : EKey.index f v id' ∈ newIdxKeys c id it
      · obtain ⟨jx, hjx, hf, _, _⟩ := mem_newIdxKeys.mp hn
        exact hf ▸ List.mem_map_of_mem Prod.fst hjx
      · simp only [if_neg hn] at h
        exact h2 f v id' h

theorem indexInv_deleteOp {Item : Type} {Bytes : Type} {c : Coll Item Bytes}
    (hnd : FieldsNodup c) {s : Store Item} (hinv : IndexInv c s) (id : String) :
    IndexInv c (deleteOp c s id).1 := by
  obtain ⟨h1, h2, h3⟩ := hinv
  cases hprev : getK s (EKey.primary id) with
  | some prev =>
    simp only [deleteOp, hprev]
    refine ⟨?_, ?_, keysNodup_applyEvents h3 _⟩
    · intro ix hix v id' it'
      rw [getK_stagedDel_index hnd hix, getK_stagedDel_primary]
      by_cases hid : id' = id
      · simp only [if_pos hid]
        by_cases hv : v ∈ frags ix prev
        · simp only [if_pos hv]
          constructor
          · intro h
            exact absurd h (by simp)
          · rintro ⟨hq, _⟩
            exact absurd hq (by simp)
        · simp only [if_neg hv]
          rw [h1 ix hix v id it', hprev]
          constructor
          · rintro ⟨hq, hw⟩
            have : prev = it' := Option.some.inj hq
            exact absurd (this ▸ hw) hv
          · rintro ⟨hq, _⟩
            exact absurd hq (by simp)
      · simp only [if_neg hid]
        exact h1 ix hix v id' it'
    · intro f v id' h
      rw [getK_stagedDel] at h
      simp only [if_neg (by simp : ¬ (EKey.index f v id' = EKey.primary id))] at h
      by_cases hn : EKey.index f v id' ∈ newIdxKeys c id prev
      · simp [if_pos hn] at h
      · simp only [if_neg hn] at h
        exact h2 f v id' h
  | none =>
    simp only [deleteOp, hprev]
    exact ⟨h1, h2, h3⟩

theorem indexInv_execOp {Item : Type} {Bytes : Type} [DecidableEq Bytes] {c : Coll Item Bytes}
    (hnd : FieldsNodup c) {s : Store Item} (hinv : IndexInv c s) (op : Op Item) :
    IndexInv c (execOp c s op) := by
  cases op with
  | put id it => exact indexInv_putOp hnd hinv id it
  | del id => exact indexInv_deleteOp hnd hinv id

theorem indexInv_execOps {Item : Type} {Bytes : Type} [DecidableEq Bytes] {c : Coll Item Bytes}
    (hnd : FieldsNodup c) {s : Store Item} (hinv : IndexInv c s) (ops : List (Op Item)) :
    IndexInv c (execOps c s ops) := by
  induction ops generalizing s with
  | nil => exact hinv
  | cons op rest ih => exact ih (indexInv_execOp hnd hinv op)

/-- Structural order on keys mirroring the lexicographic order of rendered
keys within each scan class (spec §4.2: the store returns lexicographically
ordered keys; the record id is the final key segment). -/
def keyLE : EKey → EKey → Prop
  | .primary i, .primary j => i ≤ j
  | .primary _, .index _ _ _ => True
  | .index _ _ _, .primary _ => False
  | .index f v i, .index g w j => f < g ∨ (f = g ∧ (v < w ∨ (v = w ∧ i ≤ j)))

instance keyLE.decRel : DecidableRel keyLE := fun a b => by
  cases a <;> cases b <;> simp only [keyLE] <;> infer_instance

instance keyLE.total : IsTotal EKey keyLE where
  total a b := by
    cases a with
    | primary i =>
      cases b with
      | primary j => exact (le_total i j).imp (fun h => h) (fun h => h)
      | index g w j => exact Or.inl trivial
    | index f v i =>
      cases b with
      | primary j => exact Or.inr trivial
      | index g w j =>
        rcases lt_trichotomy f g with hf | hf | hf
        · exact Or.inl (Or.inl hf)
        · rcases lt_trichotomy v w with hv | hv | hv
          · exact Or.inl (Or.inr ⟨hf, Or.inl hv⟩)
          · rcases le_total i j with hi | hi
            · exact Or.inl (Or.inr ⟨hf, Or.inr ⟨hv, hi⟩⟩)
            · exact Or.inr (Or.inr ⟨hf.symm, Or.inr ⟨hv.symm, hi⟩⟩)
          · exact Or.inr (Or.inr ⟨hf.symm, Or.inl hv⟩)
        · exact Or.inr (Or.inl hf)

instance keyLE.trans : IsTrans EKey keyLE where
  trans a b c hab hbc := by
    cases a with
    | primary i =>
      cases b with
      | primary j =>
        cases c with
        | primary k => exact le_trans hab hbc
        | index _ _ _ => exact trivial
      | index g w j =>
        cases c with
        | primary k => exact absurd hbc (by simp [keyLE])
        | index _ _ _ => exact trivial
    | index f v i =>
      cases b with
      | primary j => exact absurd hab (by simp [keyLE])
      | index g w j =>
        cases c with
        | primary k => exact absurd hbc (by simp [keyLE])
        | index g' w' j' =>
          simp only [keyLE] at hab hbc ⊢
          rcases hab with hf | ⟨hf, hrest⟩
          · rcases hbc with hg | ⟨hg, _⟩
            · exact Or.inl (hf.trans hg)
            · exact Or.inl (hg ▸ hf)
          · rcases hbc with hg | ⟨hg, hrest'⟩
            · exact Or.inl (hf ▸ hg)
            · refine Or.inr ⟨hf.trans hg, ?_⟩
              rcases hrest with hv | ⟨hv, hi⟩
              · rcases hrest' with hw | ⟨hw, _⟩
                · exact Or.inl (hv.trans hw)
                · exact Or.inl (hw ▸ hv)
              · rcases hrest' with hw | ⟨hw, hj⟩
                · exact Or.inl (hv ▸ hw)
                · exact Or.inr ⟨hv.trans hw, hi.trans hj⟩

/-- Order on store entries by key. -/
def entryLE {Item : Type} (a b : EKey × Item) : Prop := keyLE a.1 b.1

instance entryLE.decRel {Item : Type} : DecidableRel (@entryLE Item) :=
  fun a b => keyLE.decRel a.1 b.1

instance entryLE.total {Item : Type} : IsTotal (EKey × Item) entryLE where
  total a b := keyLE.total.total a.1 b.1

instance entryLE.trans {Item : Type} : IsTrans (EKey × Item) entryLE where
  trans a b c hab hbc := keyLE.trans.trans a.1 b.1 c.1 hab hbc

/-- Membership test of the index sub-namespace scanned by `GetByIndex`. -/
def isIdxEntry (f v : String) : EKey → Bool
  | .index g w _ => g == f && w == v
  | _ => false

/-- Membership test of the primary namespace scanned by `List`. -/
def isPrimaryEntry : EKey → Bool
  | .primary _ => true
  | .index _ _ _ => false

/-- Modelled from the spec: `GetByIndex(index, value)` (spec §4.2).  Eagerly
prefix-scans the index sub-namespace of the given field and stringified
value in lexicographic key order and decodes each entry's duplicated payload
directly, yielding `(id, item)` pairs; the id is the trailing key segment. -/
def getByIndex {Item : Type} (s : Store Item) (f v : String) : List (String × Item) :=
  (List.insertionSort entryLE (s.filter (fun e => isIdxEntry f v e.1))).map
    (fun e => (keyId e.1, e.2))

/-- Modelled from the spec: `List()` (spec §4.2), the full-namespace scan of
primary records ordered by id. -/
def listAll {Item : Type} (s : Store Item) : List (String × Item) :=
  (List.insertionSort entryLE (s.filter (fun e => isPrimaryEntry e.1))).map
    (fun e => (keyId e.1, e.2))

theorem isIdxEntry_iff {f v : String} {k : EKey} :
    isIdxEntry f v k = true ↔ ∃ j, k = EKey.index f v j := by
  cases k with
  | primary i => simp [isIdxEntry]
  | index g w j =>
    simp only [isIdxEntry, Bool.and_eq_true, beq_iff_eq, EKey.index.injEq]
    constructor
    · rintro ⟨hg, hw⟩
      exact ⟨j, hg, hw, rfl⟩
    · rintro ⟨j', hg, hw, hj⟩
      exact ⟨hg, hw⟩

theorem mem_getByIndex {Item : Type} {s : Store Item} {f v id : String} {it : Item}
    (hnd : KeysNodup s) :
    (id, it) ∈ getByIndex s f v ↔ getK s (EKey.index f v id) = some it := by
  unfold getByIndex
  rw [List.mem_map]
  constructor
  · rintro ⟨e, he, hmap⟩
    rw [List.mem_insertionSort] at he
    have hmem := List.mem_of_mem_filter he
    have hpred := List.of_mem_filter he
    obtain ⟨j, hk⟩ := isIdxEntry_iff.mp hpred
    have hid : j = id := by
      have := congrArg Prod.fst hmap
      simpa [hk, keyId] using this
    have hit : e.2 = it := congrArg Prod.snd hmap
    have : (EKey.index f v id, it) ∈ s := by
      have he2 : e = (EKey.index f v id, it) := by
        cases e with
        | mk k x =>
          simp only at hk hit
          subst hk
          subst hit
          subst hid
          rfl
      exact he2 ▸ hmem
    exact getK_of_mem hnd this
  · intro h
    refine ⟨(EKey.index f v id, it), ?_, by simp [keyId]⟩
    rw [List.mem_insertionSort]
    exact List.mem_filter.mpr ⟨mem_of_getK h, by simp [isIdxEntry]⟩

theorem getByIndex_sorted {Item : Type} {s : Store Item} (hnd : KeysNodup s)
    (f v : String) :
    (getByIndex s f v).Pairwise (fun a b => a.1 < b.1) := by
  unfold getByIndex
  rw [List.pairwise_map]
  have hsorted : (List.insertionSort entryLE (s.filter (fun e => isIdxEntry f v e.1))).Pairwise
      (@entryLE Item) :=
    List.sorted_insertionSort entryLE _
  have hne : (List.insertionSort entryLE (s.filter (fun e => isIdxEntry f v e.1))).Pairwise
      (fun a b => a.1 ≠ b.1) := by
    have hfilter : (s.filter (fun e => isIdxEntry f v e.1)).Pairwise
        (fun (a b : EKey × Item) => a.1 ≠ b.1) :=
      hnd.sublist (List.filter_sublist s)
    exact ((List.perm_insertionSort entryLE _).pairwise_iff
      (fun h => Ne.symm h)).mpr hfilter
  have hshape : ∀ e ∈ List.insertionSort entryLE (s.filter (fun e => isIdxEntry f v e.1)),
      ∃ j, (e : EKey × Item).1 = EKey.index f v j := by
    intro e he
    rw [List.mem_insertionSort] at he
    have hp := List.of_mem_filter he
    exact isIdxEntry_iff.mp hp
  refine (hsorted.and hne).imp_of_mem ?_
  intro a b ha hb hab
  obtain ⟨ja, hja⟩ := hshape a ha
  obtain ⟨jb, hjb⟩ := hshape b hb
  obtain ⟨hle, hne'⟩ := hab
  rw [entryLE, hja, hjb] at hle
  simp only [keyLE] at hle
  have hj : ja ≤ jb := by
    rcases hle with hf | ⟨_, hv | ⟨_, hj⟩⟩
    · exact absurd hf (lt_irrefl f)
    · exact absurd hv (lt_irrefl v)
    · exact hj
  have hjne : ja ≠ jb := by
    intro hc
    exact hne' (by rw [hja, hjb, hc])
  rw [hja, hjb]
  simp only [keyId]
  exact lt_of_le_of_ne hj hjne

/-- Outcome of one iterator call, mirroring the Go iterator contract (`ok`,
`err`): an item, the empty-result signal (`ok = false`, no error), or a
failure. -/
inductive NextOut (α : Type) where
  | item (a : α)
  | done
  | iterErr (msg : String)
deriving DecidableEq

/-- Modelled from the spec: one `Next` call on an eagerly computed result
sequence (spec §4.2).  The sequence is finite and exhaustion yields the
empty-result signal, never a failure. -/
def iterNext {α : Type} : List α → NextOut α × List α
  | [] => (NextOut.done, [])
  | a :: r => (NextOut.item a, r)

/-- Iterator state after `n` calls to `Next`. -/
def iterAdvance {α : Type} (l : List α) : Nat → List α
  | 0 => l
  | n + 1 => (iterNext (iterAdvance l n)).2

theorem iterAdvance_eq_drop {α : Type} (l : List α) (n : Nat) :
    iterAdvance l n = l.drop n := by
  induction n with
  | zero => rfl
  | succ n ih =>
    show (iterNext (iterAdvance l n)).2 = _
    rw [ih, ← List.drop_drop]
    cases l.drop n with
    | nil => simp [iterNext]
    | cons a r => simp [iterNext]

/-- Scope of one watch subscription: a single primary key or one index
value's sub-namespace (spec §4.5). -/
inductive Scope where
  | primaryW (id : String)
  | indexW (field : String) (val : String)

/-- Membership of a raw event's key in a subscription's scope. -/
def inScope : Scope → EKey → Bool
  | .primaryW i, .primary j => i == j
  | .indexW f v, .index g w _ => f == g && v == w
  | _, _ => false

/-- Typed watch event delivered to a subscriber (spec §4.5). -/
inductive Event (Item : Type) where
  | put (id : String) (it : Item)
  | del (id : String)
deriving DecidableEq

/-- Per-subscription translator state: the last delivered payload per key
(spec §9, design note 2). -/
abbrev WState (Item : Type) := Store Item

/-- Modelled from the spec: one step of the watch translator (spec §4.5).  A
raw put whose payload differs from the last delivered payload for that key
becomes a typed Put carrying the id parsed from the trailing key segment; an
unchanged payload produces no event; a raw delete becomes a typed Delete. -/
def wstep {Item : Type} [DecidableEq Item] (sc : Scope) (st : WState Item) :
    RawEvent Item → WState Item × Option (Event Item)
  | .putE k v =>
    if inScope sc k then
      match getK st k with
      | some last =>
        if last = v then (st, none)
        else (putK st k v, some (Event.put (keyId k) v))
      | none => (putK st k v, some (Event.put (keyId k) v))
    else (st, none)
  | .delE k =>
    if inScope sc k then (delK st k, some (Event.del (keyId k)))
    else (st, none)

/-- Events delivered to one subscriber for a raw feed, from a given
translator state. -/
def translateFrom {Item : Type} [DecidableEq Item] (sc : Scope) (st : WState Item) :
    List (RawEvent Item) → List (Event Item)
  | [] => []
  | e :: r =>
    match wstep sc st e with
    | (st', some ev) => ev :: translateFrom sc st' r
    | (st', none) => translateFrom sc st' r

/-- Events delivered to a subscriber that observes the raw feed from the
collection's creation. -/
def watchEvents {Item : Type} [DecidableEq Item] (sc : Scope)
    (evs : List (RawEvent Item)) : List (Event Item) :=
  translateFrom sc [] evs

/-- Error kind of collection point operations (spec §7). -/
inductive CollErr where
  | notFound
deriving DecidableEq

/-- Modelled from the spec: a TTL-carrying key space (spec §3 "Lifecycle",
§6 "TTL/lease").  Each entry carries its payload and an optional absolute
expiry instant; time is explicit in integer seconds. -/
abbrev TtlStore (Item : Type) := List (String × Item × Option Nat)

/-- Newest binding for a key in the TTL store. -/
def tLookup {Item : Type} : TtlStore Item → String → Option (Item × Option Nat)
  | [], _ => none
  | e :: r, k => if e.1 = k then some e.2 else tLookup r k

/-- Modelled from the spec: `PutTTL(k, v, ttl)` at instant `now` attaches a
fresh lease expiring at `now + ttl`; a repeated call replaces the lease
(spec §4.3, §6). -/
def putTTLOp {Item : Type} (s : TtlStore Item) (k : String) (v : Item) (ttl : Nat)
    (now : Nat) : TtlStore Item :=
  (k, v, some (now + ttl)) :: s

/-- Modelled from the spec: `Get(id)` at instant `now`; fails with NotFound
if the key is absent or its lease has expired (spec §4.2). -/
def tGet {Item : Type} (s : TtlStore Item) (k : String) (now : Nat) :
    Except CollErr Item :=
  match tLookup s k with
  | none => Except.error CollErr.notFound
  | some (v, none) => Except.ok v
  | some (v, some exp) =>
    if now < exp then Except.ok v else Except.error CollErr.notFound

/-- Modelled from the spec: `TTL(id)` at instant `now`, the remaining
seconds of the key's lease; fails with NotFound if the key is absent,
carries no lease, or has expired (spec §4.2). -/
def tTTL {Item : Type} (s : TtlStore Item) (k : String) (now : Nat) :
    Except CollErr Nat :=
  match tLookup s k with
  | some (_, some exp) =>
    if now < exp then Except.ok (exp - now) else Except.error CollErr.notFound
  | _ => Except.error CollErr.notFound

/-- Plugin configuration read from Vault storage
(src/plugin/vault/pachyderm, `config` as used by login.go). -/
structure VaultConfig where
  adminToken : String
  pachdAddress : String
  ttl : String
deriving DecidableEq

/-- Error outcomes of `pathAuthLogin` (login.go).  `invalidRequest` is
`logical.ErrInvalidRequest`; `errMsg` is `errors.New` with the given
message; the remaining constructors propagate failures of `getConfig`,
`SanitizeTTLStr` and `generateUserCredentials` respectively. -/
inductive LoginError where
  | invalidRequest
  | configError (msg : String)
  | errMsg (msg : String)
  | sanitizeError (msg : String)
  | remoteError (msg : String)
deriving DecidableEq

/-- Successful login response of `pathAuthLogin` (login.go lines 64-78): the
minted user token, the pachd address recorded in the metadata, and the lease
TTL. -/
structure AuthResponse where
  userToken : String
  pachdAddress : String
  ttl : Nat
deriving DecidableEq

/-- Translation of `pathAuthLogin` (login.go lines 29-79).  The stored
configuration fetch, the TTL sanitizer and the remote pachd call
`generateUserCredentials` are passed as oracles; the function mirrors the
source's sequence of guards: empty username fails with ErrInvalidRequest,
then missing admin_token, pachd_address and ttl each fail with their own
error, all before the remote call is consulted. -/
def pathAuthLogin (username : String) (getConfig : Except String VaultConfig)
    (sanitizeTTL : String → Except String Nat)
    (generateUserCredentials : String → String → String → Nat → Except String String) :
    Except LoginError AuthResponse :=
  if username.length = 0 then Except.error LoginError.invalidRequest
  else
    match getConfig with
    | Except.error e => Except.error (LoginError.configError e)
    | Except.ok config =>
      if config.adminToken.length = 0 then
        Except.error (LoginError.errMsg "plugin is missing admin_token")
      else if config.pachdAddress.length = 0 then
        Except.error (LoginError.errMsg "plugin is missing pachd_address")
      else if config.ttl.length = 0 then
        Except.error (LoginError.errMsg "plugin is missing ttl")
      else
        match sanitizeTTL config.ttl with
        | Except.error e => Except.error (LoginError.sanitizeError e)
        | Except.ok ttl =>
          match generateUserCredentials config.pachdAddress config.adminToken username ttl with
          | Except.error e => Except.error (LoginError.remoteError e)
          | Except.ok tok => Except.ok ⟨tok, config.pachdAddress, ttl⟩

/-- Persistent-disk/object-store backend enumeration (assets.go lines
56-65). -/
inductive Backend where
  | localBackend
  | amazonBackend
  | googleBackend
  | microsoftBackend
  | minioBackend
deriving DecidableEq

/-- Options applicable to all asset types (assets.go `AssetOpts`, lines
67-132).  `etcdPrefixOpt` and `namespaceOpt` are the Go fields EtcdPrefix
and Namespace. -/
structure AssetOpts where
  pachdShards : Nat
  version : String
  logLevel : String
  metrics : Bool
  dynamic : Bool
  etcdNodes : Int
  etcdVolume : String
  dashOnly : Bool
  noDash : Bool
  dashImage : String
  registry : String
  etcdPrefixOpt : String
  noGuaranteed : Bool
  disableAuthentication : Bool
  blockCacheSize : String
  pachdCPURequest : String
  pachdNonCacheMemRequest : String
  etcdCPURequest : String
  etcdMemRequest : String
  iamRole : String
  imagePullSecret : String
  noRBAC : Bool
  namespaceOpt : String
deriving DecidableEq

/-- Translation of `fillDefaultResourceRequests` (assets.go lines 149-189):
each of the five resource-request fields that is the empty string receives a
default, small for the local backend and larger otherwise; non-empty fields
and all other fields are untouched. -/
def fillDefaultResourceRequests (opts : AssetOpts) (persistentDiskBackend : Backend) :
    AssetOpts :=
  if persistentDiskBackend = Backend.localBackend then
    { opts with
      blockCacheSize := if opts.blockCacheSize = "" then "256M" else opts.blockCacheSize
      pachdNonCacheMemRequest :=
        if opts.pachdNonCacheMemRequest = "" then "256M" else opts.pachdNonCacheMemRequest
      pachdCPURequest := if opts.pachdCPURequest = "" then "0.25" else opts.pachdCPURequest
      etcdMemRequest := if opts.etcdMemRequest = "" then "256M" else opts.etcdMemRequest
      etcdCPURequest := if opts.etcdCPURequest = "" then "0.25" else opts.etcdCPURequest }
  else
    { opts with
      blockCacheSize := if opts.blockCacheSize = "" then "1G" else opts.blockCacheSize
      pachdNonCacheMemRequest :=
        if opts.pachdNonCacheMemRequest = "" then "2G" else opts.pachdNonCacheMemRequest
      pachdCPURequest := if opts.pachdCPURequest = "" then "1" else opts.pachdCPURequest
      etcdMemRequest := if opts.etcdMemRequest = "" then "2G" else opts.etcdMemRequest
      etcdCPURequest := if opts.etcdCPURequest = "" then "1" else opts.etcdCPURequest }

theorem string_length_eq_zero_iff (s : String) : s.length = 0 ↔ s = "" := by
  constructor
  · intro h
    cases s with
    | mk data =>
      cases data with
      | nil => rfl
      | cons c cs => simp [String.length] at h
  · intro h
    simp [h]

/-- C5: for every key `k`, value `v` and positive duration `T`,
`PutTTL(k, v, T)` followed immediately by `TTL(k)` succeeds and returns a
number of seconds `n` with `0 < n ≤ T`.  Spec-modelled (collection.go is not
in the sources): in the explicit-time model an immediate query observes the
full remaining duration `T`. -/
theorem claimC5 {Item : Type} (s : TtlStore Item) (k : String) (v : Item) (T now : Nat)
    (hT : 0 < T) :
    ∃ n, tTTL (putTTLOp s k v T now) k now = Except.ok n ∧ 0 < n ∧ n ≤ T := by
  refine ⟨T, ?_, hT, le_refl T⟩
  have hlt : now < now + T := Nat.lt_add_of_pos_right hT
  simp [tTTL, putTTLOp, tLookup, hlt]

/-- Witness for C5 at a concrete input. -/
theorem claimC5_witness :
    ∃ n, tTTL (putTTLOp ([] : TtlStore Bool) "key" true 5 0) "key" 0 = Except.ok n
      ∧ 0 < n ∧ n ≤ 5 :=
  claimC5 [] "key" true 5 0 (by decide)

/-- C6: once more than `T` seconds have elapsed after `PutTTL(k, v, T)`,
`Get(k)` fails with NotFound, the same failure as for an id never written.
Spec-modelled (collection.go is not in the sources). -/
theorem claimC6 {Item : Type} (s : TtlStore Item) (k : String) (v : Item)
    (T now now2 : Nat) (h : now + T < now2) :
    tGet (putTTLOp s k v T now) k now2 = Except.error CollErr.notFound
    ∧ tGet ([] : TtlStore Item) k now2 = Except.error CollErr.notFound := by
  constructor
  · have hnl : ¬ now2 < now + T := by omega
    simp [tGet, putTTLOp, tLookup, hnl]
  · simp [tGet, tLookup]

/-- Witness for C6 at a concrete input. -/
theorem claimC6_witness :
    tGet (putTTLOp ([] : TtlStore Bool) "key" true 5 0) "key" 6 = Except.error CollErr.notFound
    ∧ tGet ([] : TtlStore Bool) "key" 6 = Except.error CollErr.notFound :=
  claimC6 [] "key" true 5 0 6 (by decide)

/-- C9: `pathAuthLogin` fails with ErrInvalidRequest on an empty username,
and with a distinct dedicated error when the stored configuration's
AdminToken, PachdAddress or TTL is empty; in each case the outcome is the
same for every remote-call oracle `gen`, i.e. the failure is decided before
any call to the pachd authentication API, so no token is minted (login.go
lines 29-62). -/
theorem claimC9 (username : String) (gc : Except String VaultConfig)
    (san : String → Except String Nat)
    (gen : String → String → String → Nat → Except String String) :
    (username = "" →
      pathAuthLogin username gc san gen = Except.error LoginError.invalidRequest)
    ∧ (∀ cfg, username ≠ "" → gc = Except.ok cfg → cfg.adminToken = "" →
      pathAuthLogin username gc san gen =
        Except.error (LoginError.errMsg "plugin is missing admin_token"))
    ∧ (∀ cfg, username ≠ "" → gc = Except.ok cfg → cfg.adminToken ≠ "" →
        cfg.pachdAddress = "" →
      pathAuthLogin username gc san gen =
        Except.error (LoginError.errMsg "plugin is missing pachd_address"))
    ∧ (∀ cfg, username ≠ "" → gc = Except.ok cfg → cfg.adminToken ≠ "" →
        cfg.pachdAddress ≠ "" → cfg.ttl = "" →
      pathAuthLogin username gc san gen =
        Except.error (LoginError.errMsg "plugin is missing ttl"))
    ∧ ([LoginError.invalidRequest, LoginError.errMsg "plugin is missing admin_token",
        LoginError.errMsg "plugin is missing pachd_address",
        LoginError.errMsg "plugin is missing ttl"].Pairwise (fun a b => a ≠ b)) := by
  refine ⟨?_, ?_, ?_, ?_, ?_⟩
  · intro h
    simp [pathAuthLogin, h]
  · intro cfg hu hgc hat
    have hu' : ¬ username.length = 0 := fun hc => hu ((string_length_eq_zero_iff _).mp hc)
    simp [pathAuthLogin, hu', hgc, hat]
  · intro cfg hu hgc hat hpa
    have hu' : ¬ username.length = 0 := fun hc => hu ((string_length_eq_zero_iff _).mp hc)
    have hat' : ¬ cfg.adminToken.length = 0 :=
      fun hc => hat ((string_length_eq_zero_iff _).mp hc)
    simp [pathAuthLogin, hu', hgc, hat', hpa]
  · intro cfg hu hgc hat hpa httl
    have hu' : ¬ username.length = 0 := fun hc => hu ((string_length_eq_zero_iff _).mp hc)
    have hat' : ¬ cfg.adminToken.length = 0 :=
      fun hc => hat ((string_length_eq_zero_iff _).mp hc)
    have hpa' : ¬ cfg.pachdAddress.length = 0 :=
      fun hc => hpa ((string_length_eq_zero_iff _).mp hc)
    simp [pathAuthLogin, hu', hgc, hat', hpa', httl]
  · decide

/-- Witness for C9 at concrete inputs covering each guarded failure. -/
theorem claimC9_witness :
    (pathAuthLogin "" (Except.ok ⟨"tok", "addr", "5m"⟩)
        (fun _ => Except.ok 1) (fun _ _ _ _ => Except.ok "t")
      = Except.error LoginError.invalidRequest)
    ∧ (pathAuthLogin "alice" (Except.ok ⟨"", "addr", "5m"⟩)
        (fun _ => Except.ok 1) (fun _ _ _ _ => Except.ok "t")
      = Except.error (LoginError.errMsg "plugin is missing admin_token"))
    ∧ (pathAuthLogin "alice" (Except.ok ⟨"tok", "", "5m"⟩)
        (fun _ => Except.ok 1) (fun _ _ _ _ => Except.ok "t")
      = Except.error (LoginError.errMsg "plugin is missing pachd_address"))
    ∧ (pathAuthLogin "alice" (Except.ok ⟨"tok", "addr", ""⟩)
        (fun _ => Except.ok 1) (fun _ _ _ _ => Except.ok "t")
      = Except.error (LoginError.errMsg "plugin is missing ttl")) := by
  refine ⟨?_, ?_, ?_, ?_⟩
  · exact (claimC9 "" (Except.ok ⟨"tok", "addr", "5m"⟩)
      (fun _ => Except.ok 1) (fun _ _ _ _ => Except.ok "t")).1 rfl
  · exact (claimC9 "alice" (Except.ok ⟨"", "addr", "5m"⟩)
      (fun _ => Except.ok 1) (fun _ _ _ _ => Except.ok "t")).2.1
      ⟨"", "addr", "5m"⟩ (by decide) rfl rfl
  · exact (claimC9 "alice" (Except.ok ⟨"tok", "", "5m"⟩)
      (fun _ => Except.ok 1) (fun _ _ _ _ => Except.ok "t")).2.2.1
      ⟨"tok", "", "5m"⟩ (by decide) rfl (by decide) rfl
  · exact (claimC9 "alice" (Except.ok ⟨"tok", "addr", ""⟩)
      (fun _ => Except.ok 1) (fun _ _ _ _ => Except.ok "t")).2.2.2.1
      ⟨"tok", "addr", ""⟩ (by decide) rfl (by decide) (by decide) rfl

/-- C10: `fillDefaultResourceRequests` assigns a value only to those of the
five resource-request fields that are empty (the default depending only on
whether the persistent-disk backend is local, expressed by the final
equation against a canonicalized backend), leaves every non-empty one of
those fields at its given value, and leaves every other field of the
options unchanged (assets.go lines 149-189). -/
theorem claimC10 (opts : AssetOpts) (b : Backend) :
    (fillDefaultResourceRequests opts b).blockCacheSize =
      (if opts.blockCacheSize = "" then
        (if b = Backend.localBackend then "256M" else "1G") else opts.blockCacheSize)
    ∧ (fillDefaultResourceRequests opts b).pachdNonCacheMemRequest =
      (if opts.pachdNonCacheMemRequest = "" then
        (if b = Backend.localBackend then "256M" else "2G") else opts.pachdNonCacheMemRequest)
    ∧ (fillDefaultResourceRequests opts b).pachdCPURequest =
      (if opts.pachdCPURequest = "" then
        (if b = Backend.localBackend then "0.25" else "1") else opts.pachdCPURequest)
    ∧ (fillDefaultResourceRequests opts b).etcdMemRequest =
      (if opts.etcdMemRequest = "" then
        (if b = Backend.localBackend then "256M" else "2G") else opts.etcdMemRequest)
    ∧ (fillDefaultResourceRequests opts b).etcdCPURequest =
      (if opts.etcdCPURequest = "" then
        (if b = Backend.localBackend then "0.25" else "1") else opts.etcdCPURequest)
    ∧ (fillDefaultResourceRequests opts b).pachdShards = opts.pachdShards
    ∧ (fillDefaultResourceRequests opts b).version = opts.version
    ∧ (fillDefaultResourceRequests opts b).logLevel = opts.logLevel
    ∧ (fillDefaultResourceRequests opts b).metrics = opts.metrics
    ∧ (fillDefaultResourceRequests opts b).dynamic = opts.dynamic
    ∧ (fillDefaultResourceRequests opts b).etcdNodes = opts.etcdNodes
    ∧ (fillDefaultResourceRequests opts b).etcdVolume = opts.etcdVolume
    ∧ (fillDefaultResourceRequests opts b).dashOnly = opts.dashOnly
    ∧ (fillDefaultResourceRequests opts b).noDash = opts.noDash
    ∧ (fillDefaultResourceRequests opts b).dashImage = opts.dashImage
    ∧ (fillDefaultResourceRequests opts b).registry = opts.registry
    ∧ (fillDefaultResourceRequests opts b).etcdPrefixOpt = opts.etcdPrefixOpt
    ∧ (fillDefaultResourceRequests opts b).noGuaranteed = opts.noGuaranteed
    ∧ (fillDefaultResourceRequests opts b).disableAuthentication = opts.disableAuthentication
    ∧ (fillDefaultResourceRequests opts b).iamRole = opts.iamRole
    ∧ (fillDefaultResourceRequests opts b).imagePullSecret = opts.imagePullSecret
    ∧ (fillDefaultResourceRequests opts b).noRBAC = opts.noRBAC
    ∧ (fillDefaultResourceRequests opts b).namespaceOpt = opts.namespaceOpt
    ∧ fillDefaultResourceRequests opts b =
        fillDefaultResourceRequests opts
          (if b = Backend.localBackend then Backend.localBackend else Backend.amazonBackend) := by
  cases b <;> simp [fillDefaultResourceRequests]

/-- C7: once a `GetByIndex` or `List` iterator has yielded all matching
entries (after at least as many `Next` calls as there are results), every
further `Next` call returns the empty-result signal with no error rather
than failing.  Spec-modelled (collection.go is not in the sources). -/
theorem claimC7 {Item : Type} {Bytes : Type} [DecidableEq Bytes] (c : Coll Item Bytes)
    (ops : List (Op Item)) (f v : String) (n m : Nat)
    (hn : (getByIndex (execOps c [] ops) f v).length ≤ n)
    (hm : (listAll (execOps c [] ops)).length ≤ m) :
    iterNext (iterAdvance (getByIndex (execOps c [] ops) f v) n) =
      (NextOut.done, ([] : List (String × Item)))
    ∧ iterNext (iterAdvance (listAll (execOps c [] ops)) m) =
      (NextOut.done, ([] : List (String × Item))) := by
  constructor
  · rw [iterAdvance_eq_drop, List.drop_eq_nil_of_le hn]
    rfl
  · rw [iterAdvance_eq_drop, List.drop_eq_nil_of_le hm]
    rfl

/-- Job record of the watch scenario: a job id and its pipeline (the indexed
field), mirroring `pps.JobInfo` as used in collection_test.go lines 38-49. -/
structure JobInfo where
  job : String
  pipeline : String
deriving DecidableEq

/-- Single-valued pipeline index (collection_test.go lines 22-25). -/
def pipelineIdx : String × (JobInfo → List String) := ("Pipeline", fun j => [j.pipeline])

/-- Jobs collection of the index and watch tests (collection_test.go lines
36, 95), with the identity codec. -/
def jobColl : Coll JobInfo JobInfo := ⟨fun j => j, [pipelineIdx]⟩

/-- Commit record with a provenance list, mirroring `pfs.CommitInfo` as used
in collection_test.go lines 192-207. -/
structure CommitInfo where
  commit : String
  provenance : List String
deriving DecidableEq

/-- Multi-valued provenance index (collection_test.go lines 26-29). -/
def provenanceIdx : String × (CommitInfo → List String) :=
  ("Provenance", fun ci => ci.provenance)

/-- Commits collection of the multi-index test (collection_test.go line
190), with the identity codec. -/
def commitColl : Coll CommitInfo CommitInfo := ⟨fun ci => ci, [provenanceIdx]⟩

/-- Boolean stringification, `strconv.FormatBool` (spec §4.1: "true" or
"false"). -/
def stringifyBool (b : Bool) : String := if b then "true" else "false"

/-- Single-valued boolean index of the bool-index test (collection_test.go
lines 301-304). -/
def boolValueIdx : String × (Bool → List String) := ("Value", fun b => [stringifyBool b])

/-- Bool collection of the bool-index test, with the identity codec. -/
def boolColl : Coll Bool Bool := ⟨fun b => b, [boolValueIdx]⟩

/-- Witness for C7 at a concrete collection and operation list. -/
theorem claimC7_witness :
    iterNext (iterAdvance
        (getByIndex (execOps jobColl [] [Op.put "j1" ⟨"j1", "p1"⟩]) "Pipeline" "p1") 3) =
      (NextOut.done, ([] : List (String × JobInfo)))
    ∧ iterNext (iterAdvance (listAll (execOps jobColl [] [Op.put "j1" ⟨"j1", "p1"⟩])) 2) =
      (NextOut.done, ([] : List (String × JobInfo))) :=
  claimC7 jobColl [Op.put "j1" ⟨"j1", "p1"⟩] "Pipeline" "p1" 3 2 (by decide) (by decide)

/-- Single-valued collection over an arbitrary item type: one index on the
field selector `fval` named `f`. -/
def singleIndexColl {Item : Type} {Bytes : Type} (enc : Item → Bytes) (f : String)
    (fval : Item → String) : Coll Item Bytes :=
  ⟨enc, [(f, fun it => [fval it])]⟩

/-- C1: for a collection with a single-valued index on field `f`, after any
sequence of Puts from the empty store, `GetByIndex(f, v)` returns exactly
the pairs `(id, item)` whose current stored item satisfies `fval item = v`,
and the result sequence is strictly ordered by ascending record id.
Spec-modelled (collection.go is not in the sources). -/
theorem claimC1 {Item : Type} {Bytes : Type} [DecidableEq Bytes] (enc : Item → Bytes)
    (f : String) (fval : Item → String) (puts : List (String × Item)) (v : String) :
    (∀ id it,
      ((id, it) ∈ getByIndex
          (execOps (singleIndexColl enc f fval) [] (puts.map (fun p => Op.put p.1 p.2))) f v
        ↔ (getK (execOps (singleIndexColl enc f fval) [] (puts.map (fun p => Op.put p.1 p.2)))
            (EKey.primary id) = some it ∧ fval it = v)))
    ∧ (getByIndex
          (execOps (singleIndexColl enc f fval) [] (puts.map (fun p => Op.put p.1 p.2))) f v
        ).Pairwise (fun a b => a.1 < b.1) := by
  have hnd : FieldsNodup (singleIndexColl enc f fval) := by
    simp [FieldsNodup, singleIndexColl]
  have hinv := indexInv_execOps hnd (indexInv_nil (singleIndexColl enc f fval))
    (puts.map (fun p => Op.put p.1 p.2))
  obtain ⟨h1, h2, h3⟩ := hinv
  constructor
  · intro id it
    rw [mem_getByIndex h3]
    have hix : (f, fun it => [fval it]) ∈ (singleIndexColl enc f fval).indexes :=
      List.mem_singleton.mpr rfl
    have := h1 (f, fun it => [fval it]) hix v id it
    rw [this]
    have hfr : v ∈ frags (f, fun it => [fval it]) it ↔ fval it = v := by
      simp [frags, eq_comm]
    rw [hfr]
  · exact getByIndex_sorted h3 f v

theorem getK_deleteOp_primary {Item : Type} {Bytes : Type} (c : Coll Item Bytes)
    (s : Store Item) (id : String) :
    getK (deleteOp c s id).1 (EKey.primary id) = none := by
  cases hprev : getK s (EKey.primary id) with
  | some prev =>
    simp only [deleteOp, hprev]
    rw [getK_stagedDel_primary]
    simp
  | none =>
    simp only [deleteOp, hprev]

/-- C2: after every completed Put or Delete sequence from the empty store,
index entries exist exactly for the `(index, value)` pairs currently
produced by each live record's field function and hold the record's current
payload (first conjunct, the raw-entry characterization; second conjunct,
the same fact through `GetByIndex`), and after a `Delete(id)` the record is
gone from the primary namespace and from every `GetByIndex` result (third
conjunct).  Spec-modelled (collection.go is not in the sources). -/
theorem claimC2 {Item : Type} {Bytes : Type} [DecidableEq Bytes] (c : Coll Item Bytes)
    (hnd : FieldsNodup c) (ops : List (Op Item)) :
    (∀ ix ∈ c.indexes, ∀ v id it,
      getK (execOps c [] ops) (EKey.index ix.1 v id) = some it ↔
        (getK (execOps c [] ops) (EKey.primary id) = some it ∧ v ∈ frags ix it))
    ∧ (∀ ix ∈ c.indexes, ∀ v id it,
      ((id, it) ∈ getByIndex (execOps c [] ops) ix.1 v ↔
        (getK (execOps c [] ops) (EKey.primary id) = some it ∧ v ∈ frags ix it)))
    ∧ (∀ id, getK (execOps c [] (ops ++ [Op.del id])) (EKey.primary id) = none
        ∧ (∀ ix ∈ c.indexes, ∀ v it,
            (id, it) ∉ getByIndex (execOps c [] (ops ++ [Op.del id])) ix.1 v)) := by
  obtain ⟨h1, h2, h3⟩ := indexInv_execOps hnd (indexInv_nil c) ops
  refine ⟨h1, ?_, ?_⟩
  · intro ix hix v id it
    rw [mem_getByIndex h3]
    exact h1 ix hix v id it
  · intro id
    obtain ⟨g1, g2, g3⟩ := indexInv_execOps hnd (indexInv_nil c) (ops ++ [Op.del id])
    have hprim : getK (execOps c [] (ops ++ [Op.del id])) (EKey.primary id) = none := by
      rw [execOps_append]
      exact getK_deleteOp_primary c (execOps c [] ops) id
    refine ⟨hprim, ?_⟩
    intro ix hix v it hmem
    rw [mem_getByIndex g3] at hmem
    obtain ⟨hq, _⟩ := (g1 ix hix v id it).mp hmem
    rw [hprim] at hq
    exact absurd hq (by simp)

/-- Witness for C2 at the multi-index scenario of collection_test.go
(provenance of record c1 updated from inc3 to inc4, then c1 deleted): after
the delete the record is absent from the primary namespace and from the
index scan of value inc1. -/
theorem claimC2_witness :
    getK (execOps commitColl []
        ([Op.put "c1" ⟨"c1", ["inc1", "inc2", "inc3"]⟩,
          Op.put "c2" ⟨"c2", ["inc1", "inc2", "inc3"]⟩,
          Op.put "c1" ⟨"c1", ["inc1", "inc2", "inc4"]⟩] ++ [Op.del "c1"]))
      (EKey.primary "c1") = none
    ∧ ("c1", (⟨"c1", ["inc1", "inc2", "inc4"]⟩ : CommitInfo)) ∉ getByIndex
        (execOps commitColl []
          ([Op.put "c1" ⟨"c1", ["inc1", "inc2", "inc3"]⟩,
            Op.put "c2" ⟨"c2", ["inc1", "inc2", "inc3"]⟩,
            Op.put "c1" ⟨"c1", ["inc1", "inc2", "inc4"]⟩] ++ [Op.del "c1"]))
        "Provenance" "inc1" := by
  have h := (claimC2 commitColl (by simp [FieldsNodup, commitColl])
      [Op.put "c1" ⟨"c1", ["inc1", "inc2", "inc3"]⟩,
        Op.put "c2" ⟨"c2", ["inc1", "inc2", "inc3"]⟩,
        Op.put "c1" ⟨"c1", ["inc1", "inc2", "inc4"]⟩]).2.2 "c1"
  exact ⟨h.1, h.2 provenanceIdx (List.mem_singleton_self _) "inc1"
    ⟨"c1", ["inc1", "inc2", "inc4"]⟩⟩

/-- C3: a `Put` whose encoding is byte-identical to the stored encoding is a
complete no-op: the store is unchanged and nothing is staged (first
conjunct), inserting the Put anywhere into an operation sequence changes
neither the resulting store nor the raw change feed (second and third
conjuncts), and hence no watcher of any scope ever observes an event for it
(fourth conjunct).  Spec-modelled (collection.go is not in the sources). -/
theorem claimC3 {Item : Type} {Bytes : Type} [DecidableEq Item] [DecidableEq Bytes]
    (c : Coll Item Bytes) (ops1 ops2 : List (Op Item)) (id : String) (it prev : Item)
    (hprev : getK (execOps c [] ops1) (EKey.primary id) = some prev)
    (henc : c.encode prev = c.encode it) :
    putOp c (execOps c [] ops1) id it = (execOps c [] ops1, [])
    ∧ execOps c [] (ops1 ++ Op.put id it :: ops2) = execOps c [] (ops1 ++ ops2)
    ∧ runEvents c [] (ops1 ++ Op.put id it :: ops2) = runEvents c [] (ops1 ++ ops2)
    ∧ (∀ sc : Scope, watchEvents sc (runEvents c [] (ops1 ++ Op.put id it :: ops2)) =
        watchEvents sc (runEvents c [] (ops1 ++ ops2))) := by
  have hput : putOp c (execOps c [] ops1) id it = (execOps c [] ops1, []) := by
    simp only [putOp, hprev, if_pos henc]
  have hstep : execOp c (execOps c [] ops1) (Op.put id it) = execOps c [] ops1 := by
    simp only [execOp, hput]
  have hexec : execOps c [] (ops1 ++ Op.put id it :: ops2) = execOps c [] (ops1 ++ ops2) := by
    rw [execOps_append, execOps_append]
    show execOps c (execOp c (execOps c [] ops1) (Op.put id it)) ops2 = _
    rw [hstep]
  have hrun : runEvents c [] (ops1 ++ Op.put id it :: ops2) =
      runEvents c [] (ops1 ++ ops2) := by
    rw [runEvents_append, runEvents_append]
    show runEvents c [] ops1 ++
        (opEvents c (execOps c [] ops1) (Op.put id it) ++
          runEvents c (execOp c (execOps c [] ops1) (Op.put id it)) ops2) = _
    rw [hstep]
    have hop : opEvents c (execOps c [] ops1) (Op.put id it) = [] := by
      simp only [opEvents, hput]
    rw [hop, List.nil_append]
  exact ⟨hput, hexec, hrun, fun sc => by rw [hrun]⟩

/-- Witness for C3: re-putting j1 unchanged after its initial Put leaves the
store untouched and the raw feed empty-extended. -/
theorem claimC3_witness :
    putOp jobColl (execOps jobColl [] [Op.put "j1" ⟨"j1", "p1"⟩]) "j1" ⟨"j1", "p1"⟩ =
      (execOps jobColl [] [Op.put "j1" ⟨"j1", "p1"⟩], [])
    ∧ runEvents jobColl [] ([Op.put "j1" ⟨"j1", "p1"⟩] ++ Op.put "j1" ⟨"j1", "p1"⟩ :: []) =
      runEvents jobColl [] ([Op.put "j1" ⟨"j1", "p1"⟩] ++ []) := by
  have h := claimC3 jobColl [Op.put "j1" ⟨"j1", "p1"⟩] [] "j1" ⟨"j1", "p1"⟩ ⟨"j1", "p1"⟩
    (by decide) rfl
  exact ⟨h.1, h.2.2.1⟩

/-- C8: in a collection indexed on a boolean field named Value, every index
key present in the store renders the boolean as exactly "true" or "false",
so the rendered key contains the segment `__index_Value/true` or
`__index_Value/false` (key layout of spec §6).  Spec-modelled
(collection.go is not in the sources). -/
theorem claimC8 (ns : String) (ops : List (Op Bool)) (f v id : String)
    (hk : EKey.index f v id ∈ (execOps boolColl [] ops).map Prod.fst) :
    f = "Value" ∧ (v = "true" ∨ v = "false")
    ∧ ∃ post, (renderKey ns (EKey.index f v id) = ns ++ "__index_Value/true" ++ post
        ∨ renderKey ns (EKey.index f v id) = ns ++ "__index_Value/false" ++ post) := by
  obtain ⟨h1, h2, h3⟩ := indexInv_execOps
    (show FieldsNodup boolColl by simp [FieldsNodup, boolColl]) (indexInv_nil boolColl) ops
  obtain ⟨it, hit⟩ := exists_getK_of_mem_keys hk
  have hf : f ∈ boolColl.indexes.map Prod.fst := h2 f v id (by rw [hit]; simp)
  have hf' : f = "Value" := by simpa [boolColl, boolValueIdx] using hf
  subst hf'
  have hix : boolValueIdx ∈ boolColl.indexes := List.mem_singleton_self _
  have hchar := (h1 boolValueIdx hix v id it).mp hit
  have hvfr : v = stringifyBool it := by
    have := hchar.2
    simpa [frags, boolValueIdx] using this
  have hv : v = "true" ∨ v = "false" := by
    cases it with
    | true => exact Or.inl (by simpa [stringifyBool] using hvfr)
    | false => exact Or.inr (by simpa [stringifyBool] using hvfr)
  refine ⟨rfl, hv, "/" ++ id, ?_⟩
  have hlit1 : ("__index_" ++ ("Value" ++ ("/" ++ "true")) : String) = "__index_Value/true" := by
    decide
  have hlit2 : ("__index_" ++ ("Value" ++ ("/" ++ "false")) : String) = "__index_Value/false" := by
    decide
  rcases hv with hv | hv
  · subst hv
    refine Or.inl ?_
    show ns ++ "__index_" ++ "Value" ++ "/" ++ "true" ++ "/" ++ id = _
    calc ns ++ "__index_" ++ "Value" ++ "/" ++ "true" ++ "/" ++ id
        = ns ++ ("__index_" ++ ("Value" ++ ("/" ++ "true"))) ++ ("/" ++ id) := by
          simp only [String.append_assoc]
      _ = ns ++ "__index_Value/true" ++ ("/" ++ id) := by rw [hlit1]
  · subst hv
    refine Or.inr ?_
    show ns ++ "__index_" ++ "Value" ++ "/" ++ "false" ++ "/" ++ id = _
    calc ns ++ "__index_" ++ "Value" ++ "/" ++ "false" ++ "/" ++ id
        = ns ++ ("__index_" ++ ("Value" ++ ("/" ++ "false"))) ++ ("/" ++ id) := by
          simp only [String.append_assoc]
      _ = ns ++ "__index_Value/false" ++ ("/" ++ id) := by rw [hlit2]

/-- Witness for C8 at the bool-index scenario of collection_test.go. -/
theorem claimC8_witness :
    "Value" = "Value" ∧ ("true" = "true" ∨ "true" = "false")
    ∧ ∃ post,
      (renderKey "pfx" (EKey.index "Value" "true" "true") = "pfx" ++ "__index_Value/true" ++ post
      ∨ renderKey "pfx" (EKey.index "Value" "true" "true") =
          "pfx" ++ "__index_Value/false" ++ post) :=
  claimC8 "pfx" [Op.put "true" true, Op.put "false" false] "Value" "true" "true" (by decide)

/-- C4: for a watcher of one index value `p`, the sequence Put(j1),
Put(j1 unchanged), Put(j2 with the same indexed value), Put(j1 with a
different indexed value), Delete(j2) delivers exactly Put(j1), Put(j2),
Delete(j1), Delete(j2), in that order; in particular the record whose
indexed value changes yields a Delete on the watcher of its old value even
though the record still exists.  Spec-modelled (collection.go is not in the
sources); `a`/`b` are the two job ids, `p`/`q` the old and new pipeline. -/
theorem claimC4 (a b p q : String) (hab : a ≠ b) (hpq : p ≠ q) :
    watchEvents (Scope.indexW "Pipeline" p)
      (runEvents jobColl []
        [Op.put a ⟨a, p⟩, Op.put a ⟨a, p⟩, Op.put b ⟨b, p⟩, Op.put a ⟨a, q⟩, Op.del b])
      = [Event.put a ⟨a, p⟩, Event.put b ⟨b, p⟩, Event.del a, Event.del b] := by
  simp [watchEvents, runEvents, opEvents, execOp, putOp, deleteOp, getK, stagedPut, stagedDel,
    newIdxKeys, droppedIdxKeys, frags, jobColl, pipelineIdx, applyEvents, applyEvent, putK, delK,
    translateFrom, wstep, inScope, keyId, hab, hpq, Ne.symm hab, Ne.symm hpq]

/-- Witness for C4 at the ids and pipelines of collection_test.go
(TestIndexWatch). -/
theorem claimC4_witness :
    watchEvents (Scope.indexW "Pipeline" "p1")
      (runEvents jobColl []
        [Op.put "j1" ⟨"j1", "p1"⟩, Op.put "j1" ⟨"j1", "p1"⟩, Op.put "j2" ⟨"j2", "p1"⟩,
          Op.put "j1" ⟨"j1", "p3"⟩, Op.del "j2"])
      = [Event.put "j1" ⟨"j1", "p1"⟩, Event.put "j2" ⟨"j2", "p1"⟩,
          Event.del "j1", Event.del "j2"] :=
  claimC4 "j1" "j2" "p1" "p3" (by decide) (by decide)
